import Mathlib

/-!
Verification of the cpp_utils header (include/cpp_utils/cpp_utils.h) against
its specification: a shallow embedding of the integral-type machinery behind
`cpp_utils::range`, the boost-tuple interoperability shim, `sgn`,
`as_signed` / `as_unsigned`, and `remove_if`, together with theorems settling
the specified properties.
-/

namespace CppUtils

/-- C++ integral types of the LP64 data model as far as the library's
claims need them: the 8-, 16-, 32- and 64-bit signed and unsigned types
(`long` and `long long` are both 64-bit and behave alike here). -/
inductive CTy where
  | i8 | u8 | i16 | u16 | i32 | u32 | i64 | u64
deriving DecidableEq, Repr, Fintype

/-- Bit width of a C++ integral type. -/
def CTy.width : CTy → Nat
  | .i8 => 8 | .u8 => 8 | .i16 => 16 | .u16 => 16
  | .i32 => 32 | .u32 => 32 | .i64 => 64 | .u64 => 64

/-- Signedness of a C++ integral type. -/
def CTy.isSigned : CTy → Bool
  | .i8 => true | .u8 => false | .i16 => true | .u16 => false
  | .i32 => true | .u32 => false | .i64 => true | .u64 => false

/-- Smallest value representable in the type. -/
def CTy.minVal (t : CTy) : Int :=
  if t.isSigned then -(2 ^ (t.width - 1)) else 0

/-- Largest value representable in the type. -/
def CTy.maxVal (t : CTy) : Int :=
  if t.isSigned then 2 ^ (t.width - 1) - 1 else 2 ^ t.width - 1

/-- Whether the integer `v` is representable in the type `t`. -/
def CTy.reprIn (t : CTy) (v : Int) : Bool :=
  t.minVal ≤ v && v ≤ t.maxVal

/-- Integral promotion: types of conversion rank below `int` promote to
`int`, since on LP64 `int` represents every value of the 8- and 16-bit
types; wider types are unchanged. -/
def CTy.promote (t : CTy) : CTy :=
  if t.width < 32 then .i32 else t

/-- The unsigned counterpart of a type, same width. -/
def CTy.toUnsigned : CTy → CTy
  | .i8 => .u8 | .i16 => .u16 | .i32 => .u32 | .i64 => .u64
  | t => t

/-- The decayed common type of two integral operands of a conditional
expression `cond ? a : b`: the usual arithmetic conversions of
C++ [expr.arith.conv] applied after integral promotion.  If the promoted
types agree, that is the result; with equal signedness the higher rank
wins; with mixed signedness the unsigned type wins at greater-or-equal
rank, the signed type wins when it can represent every value of the
unsigned one (strictly greater width), and otherwise the unsigned
counterpart of the signed type is taken. -/
def CTy.commonType (a b : CTy) : CTy :=
  let a := a.promote
  let b := b.promote
  if a = b then a
  else if a.isSigned = b.isSigned then
    if b.width ≤ a.width then a else b
  else
    let s := if a.isSigned then a else b
    let u := if a.isSigned then b else a
    if s.width ≤ u.width then u
    else if u.width < s.width then s
    else s.toUnsigned

/-- Integral conversion of a value to type `d`: modular (two's complement)
wrap-around, as C++20 specifies and all LP64 implementations perform. -/
def CTy.convert (d : CTy) (v : Int) : Int :=
  if d.isSigned then (v + 2 ^ (d.width - 1)) % 2 ^ d.width - 2 ^ (d.width - 1)
  else v % 2 ^ d.width

/-- Number of elements of `boost::irange(first, last, step)` for
nonzero `step`: `max(0, ceil((last - first) / step))` for a positive step
and symmetrically `max(0, ceil((first - last) / -step))` for a negative
one. -/
def numSteps (first last step : Int) : Nat :=
  if 0 < step then (last - first + step - 1).toNat / step.toNat
  else (first - last + -step - 1).toNat / (-step).toNat

/-- The value sequence of `boost::irange<D>(first, last, step)`:
`first + k * step` for `k` below the step count. -/
def irange (first last step : Int) : List Int :=
  (List.range (numSteps first last step)).map fun (k : Nat) => first + (k : Int) * step

/-- The value sequence of the two-argument `boost::irange(first, last)`:
consecutive integers from `first` (inclusive) to `last` (exclusive). -/
def irange2 (first last : Int) : List Int :=
  (List.range (last - first).toNat).map fun (k : Nat) => first + (k : Int)

/-- Model of `cpp_utils::range(start, end, step)`: the element type is the
decayed common type `D` of `start` and `end` chosen by the conditional
expression `true ? start : end`, both endpoints are converted to `D`, and
the value sequence is that of `boost::irange<D>`.  Arguments carry their
C++ static types `tS` and `tE` alongside their integer values `s` and
`e`. -/
def range (tS tE : CTy) (s e st : Int) : CTy × List Int :=
  let D := tS.commonType tE
  (D, irange (D.convert s) (D.convert e) st)

/-- Model of the one-argument `cpp_utils::range(end)`: the body is
`boost::irange(T{0}, end)` with `T` the type of the argument, so the
element type is `T` itself and the sequence runs from zero. -/
def range1 (t : CTy) (e : Int) : CTy × List Int :=
  (t, irange2 (t.convert 0) (t.convert e))

/-- The descriptor value `boost::irange` returns: an immutable record of
the converted endpoints and the step. -/
structure RangeDesc where
  first : Int
  last : Int
  step : Int
deriving DecidableEq, Repr

/-- The descriptor built by the one-argument `cpp_utils::range(end)`. -/
def mkRange1 (t : CTy) (e : Int) : RangeDesc :=
  ⟨t.convert 0, t.convert e, 1⟩

/-- Collect `n` values starting at `cur` and advancing by `step`: the walk
a range-for loop performs with the descriptor's iterators. -/
def iterFrom : Nat → Int → Int → List Int
  | 0, _, _ => []
  | n + 1, cur, step => cur :: iterFrom n (cur + step) step

/-- One full traversal of a range descriptor: the emitted values, paired
with the descriptor as it stands afterwards.  `begin()` and `end()` are
const and iteration advances iterator copies, so the descriptor component
is returned unchanged. -/
def traverse (r : RangeDesc) : List Int × RangeDesc :=
  (iterFrom (numSteps r.first r.last r.step) r.first r.step, r)

/-- Model of `cpp_utils::sgn`: `(T{0} < val) - (val < T{0})`, each
comparison result converted from `bool` to `int`. -/
def sgn (val : Int) : Int :=
  (if 0 < val then 1 else 0) - (if val < 0 then 1 else 0)

/-- Model of `cpp_utils::as_signed` on a `w`-bit unsigned argument value:
conversion to the signed type of the same width, two's complement. -/
def as_signed (w : Nat) (u : Nat) : Int :=
  let r := (u : Int) % 2 ^ w
  if r < 2 ^ (w - 1) then r else r - 2 ^ w

/-- Model of `cpp_utils::as_unsigned` on a `w`-bit signed argument value:
conversion to the unsigned type of the same width, reduction modulo
`2 ^ w`. -/
def as_unsigned (w : Nat) (s : Int) : Nat :=
  (s % 2 ^ w).toNat

/-- Loop of `cpp_utils::remove_if`: the container currently reads
`kept ++ rest` and the iterator points at the head of `rest`.  When the
predicate holds the element is erased and `erase` returns the iterator
past it; otherwise the iterator advances past the retained element. -/
def remove_if_loop (p : α → Bool) : List α → List α → List α
  | kept, [] => kept
  | kept, x :: rest =>
    if p x then remove_if_loop p kept rest
    else remove_if_loop p (kept ++ [x]) rest

/-- Model of `cpp_utils::remove_if(container, pred)`: run the erase loop
from the beginning of the container. -/
def remove_if (c : List α) (p : α → Bool) : List α :=
  remove_if_loop p [] c

/-- A `boost::tuples` cons-chain value with element payloads drawn from a
single type `α` (indexed access never inspects element types, so one
payload type suffices to model the chain shape).  `nullType` models
`boost::tuples::null_type`, the terminator of every chain. -/
inductive Cons (α : Type u) where
  | nullType : Cons α
  | cons (head : α) (tail : Cons α) : Cons α
deriving DecidableEq, Repr

/-- Model of `boost::tuples::length`: zero on `null_type`, and one plus the
length of the tail on a cons cell. -/
def boostLength : Cons α → Nat
  | .nullType => 0
  | .cons _ tl => 1 + boostLength tl

/-- The element list of a cons-chain, in order. -/
def Cons.toList : Cons α → List α
  | .nullType => []
  | .cons h tl => h :: tl.toList

/-- Model of the shim `std::tuple_size<boost::tuples::cons<T, Tail>>`: it
is specialized for cons cells only (no specialization exists for
`null_type`), and its value is `boost::tuples::length<cons<T, Tail>>`. -/
def tuple_size : Cons α → Option Nat
  | .nullType => none
  | .cons h tl => some (boostLength (.cons h tl))

/-- Model of `boost::get<N>` on a cons-chain: `get<0>` yields the head and
`get<N+1>` recurses into the tail; no overload exists past the end of the
chain (a compile-time error, modelled as `none`). -/
def boostGet : Nat → Cons α → Option α
  | _, .nullType => none
  | 0, .cons h _ => some h
  | n + 1, .cons _ tl => boostGet n tl

/-- Model of the shim's lvalue `std::get<N>` overloads for
`boost::tuples::cons` (mutable and const alike): the body is exactly
`boost::get<N>(t)`. -/
def stdGet (n : Nat) (t : Cons α) : Option α :=
  boostGet n t

/-- Shape of a C++ function template's parameter type relative to the
template parameter a call must deduce: the bare parameter, a reference
to a shape, or a dependent alias such as
`typename std::remove_reference<T>::type`, which is a non-deduced
context per C++ [temp.deduct.type]. -/
inductive PShape where
  | tparam : PShape
  | lref : PShape → PShape
  | rref : PShape → PShape
  | depAlias : PShape → PShape
deriving DecidableEq, Repr

/-- Whether template argument deduction can recover the template parameter
from an argument matched against a parameter of the given shape: walking
through references is fine, but nothing is deduced beneath a dependent
alias. -/
def deducibleFrom : PShape → Bool
  | .tparam => true
  | .lref s => deducibleFrom s
  | .rref s => deducibleFrom s
  | .depAlias _ => false

/-- The parameter type of `std::forward<T>`:
`typename std::remove_reference<T>::type&`. -/
def forwardParamShape : PShape :=
  .lref (.depAlias .tparam)

/-- A call to a one-parameter function template: whether the template
argument is supplied explicitly, and the shape of the parameter the call
argument is matched against. -/
structure TemplateCall where
  explicitArg : Bool
  param : PShape
deriving DecidableEq, Repr

/-- A template call compiles precisely when the template argument is given
explicitly or deduction from the argument succeeds. -/
def TemplateCall.compiles (c : TemplateCall) : Bool :=
  c.explicitArg || deducibleFrom c.param

/-- The call `std::forward(t)` appearing in the bodies of both rvalue
`std::get` overloads of the shim (`cpp_utils.h` lines 39 and 55): no
explicit template argument is supplied. -/
def forwardCallInRvalueGet : TemplateCall :=
  { explicitArg := false, param := forwardParamShape }

/-- Reference kinds of C++ expressions as far as the shim needs them. -/
inductive RefCat where
  | lval | constLval | rval | constRval
deriving DecidableEq, Repr

/-- Reference kind of the expression `boost::get<N>(arg)` for each
reference kind of `arg`: boost provides only lvalue overloads
(`cons&` returning `element&` and `const cons&` returning
`const element&`), so an rvalue argument binds to the `const cons&`
overload and yields a const lvalue. -/
def boostGetRet : RefCat → RefCat
  | .lval => .lval
  | .constLval => .constLval
  | .rval => .constLval
  | .constRval => .constLval

/-- Whether a function whose declared return type is a reference of the
first kind may return an expression of the second kind: an rvalue
reference does not bind to an lvalue, and a non-const reference does not
bind to a const expression. -/
def returnBindOk : RefCat → RefCat → Bool
  | .lval, .lval => true
  | .lval, _ => false
  | .constLval, _ => true
  | .rval, .rval => true
  | .rval, _ => false
  | .constRval, .rval => true
  | .constRval, .constRval => true
  | .constRval, _ => false

end CppUtils

namespace CppUtils

/-- The iterator walk of `n` steps from `cur` emits the arithmetic
sequence `cur + k * step` for `k < n`. -/
theorem iterFrom_eq (n : Nat) (c s : Int) :
    iterFrom n c s = (List.range n).map fun (k : Nat) => c + (k : Int) * s := by
  induction n generalizing c with
  | zero => simp [iterFrom]
  | succ n ih =>
    rw [iterFrom, ih, List.range_succ_eq_map, List.map_cons, List.map_map]
    congr 1
    · simp
    · refine List.map_congr_left fun k _ => ?_
      simp only [Function.comp_apply]
      push_cast
      ring

/-- Index bound against the step count: `k` is below `numSteps f l s`
precisely when the `k`-th value of the sequence is still below `l`. -/
theorem lt_numSteps_iff {f l s : Int} (hs : 0 < s) (k : Nat) :
    k < numSteps f l s ↔ f + k * s < l := by
  have hsn : (s.toNat : Int) = s := Int.toNat_of_nonneg hs.le
  have hs0 : 0 < s.toNat := by omega
  have hks : 0 ≤ (k : Int) * s := mul_nonneg (by positivity) hs.le
  unfold numSteps
  rw [if_pos hs, Nat.lt_iff_add_one_le, Nat.le_div_iff_mul_le hs0]
  rcases le_or_lt 0 (l - f + s - 1) with hA | hA
  · rw [← @Nat.cast_le Int]
    push_cast [Int.toNat_of_nonneg hA, hsn]
    have hexp : ((k : Int) + 1) * s = (k : Int) * s + s := by ring
    rw [hexp]
    set K := (k : Int) * s with hK
    omega
  · have h1 : (l - f + s - 1).toNat = 0 := by omega
    rw [h1]
    simp only [Nat.le_zero, Nat.mul_eq_zero]
    set K := (k : Int) * s with hK
    omega

/-- Membership in the modelled `boost::irange` sequence for a positive
step: exactly the values `f + k * s` that lie strictly below `l`. -/
theorem mem_irange {f l s : Int} (hs : 0 < s) (x : Int) :
    x ∈ irange f l s ↔ ∃ k : Nat, x = f + (k : Int) * s ∧ x < l := by
  unfold irange
  rw [List.mem_map]
  constructor
  · rintro ⟨k, hk, rfl⟩
    rw [List.mem_range] at hk
    exact ⟨k, rfl, (lt_numSteps_iff hs k).mp hk⟩
  · rintro ⟨k, rfl, hlt⟩
    exact ⟨k, List.mem_range.mpr ((lt_numSteps_iff hs k).mpr hlt), rfl⟩

/-- The two-argument `boost::irange(first, last)` is the strided range
with unit step. -/
theorem irange2_eq_irange (f l : Int) : irange2 f l = irange f l 1 := by
  simp [irange2, irange, numSteps]

/-- Zero is representable in every modelled C++ integral type. -/
theorem reprIn_zero : ∀ t : CTy, t.reprIn 0 = true := by decide

/-- Conversion to a type that already represents the value is the
identity. -/
theorem CTy.convert_id {t : CTy} {v : Int} (h : t.reprIn v = true) :
    t.convert v = v := by
  cases t <;>
    simp [CTy.reprIn, CTy.minVal, CTy.maxVal, CTy.width, CTy.isSigned,
      CTy.convert] at h ⊢ <;>
    omega

/-- Integral promotion preserves representability. -/
theorem CTy.promote_reprIn {t : CTy} {v : Int} (h : t.reprIn v = true) :
    t.promote.reprIn v = true := by
  cases t <;>
    simp [CTy.reprIn, CTy.minVal, CTy.maxVal, CTy.width, CTy.isSigned,
      CTy.promote] at h ⊢ <;>
    omega

/-- The common type of a type with itself is its integral promotion. -/
theorem CTy.commonType_self : ∀ t : CTy, t.commonType t = t.promote := by
  decide

/-- `boost::tuples::length` counts exactly the elements of the chain. -/
theorem boostLength_eq_toList_length : ∀ c : Cons α, boostLength c = c.toList.length
  | .nullType => rfl
  | .cons _ tl => by
    rw [boostLength, Cons.toList, List.length_cons,
      boostLength_eq_toList_length tl]
    omega

/-- `boost::get<i>` returns the `i`-th element of the chain. -/
theorem boostGet_eq_getElem (c : Cons α) (i : Nat) :
    boostGet i c = c.toList[i]? := by
  induction c generalizing i with
  | nullType => cases i <;> simp [boostGet, Cons.toList]
  | cons h tl ih =>
    cases i with
    | zero => simp [boostGet, Cons.toList]
    | succ n => rw [boostGet, Cons.toList, List.getElem?_cons_succ, ih]

/-- The erase loop appends to the kept prefix exactly the elements of the
remaining suffix on which the predicate is false. -/
theorem remove_if_loop_eq (p : α → Bool) (kept rest : List α) :
    remove_if_loop p kept rest = kept ++ rest.filter fun x => !p x := by
  induction rest generalizing kept with
  | nil => simp [remove_if_loop]
  | cons x rest ih =>
    by_cases h : p x <;> simp [remove_if_loop, h, ih]

end CppUtils

open CppUtils

/-- C1: the claim fails on the code.  The rvalue `std::get` overloads call
`std::forward(t)` without an explicit template argument; the parameter of
`std::forward`, `typename std::remove_reference<T>::type&`, is a
non-deduced context, so the call fails template argument deduction and
any instantiation of these overloads is ill-formed.  Independently,
`boost::get` offers only lvalue overloads, so the declared
rvalue-reference return types could not be initialized from its result
even with the template argument supplied. -/
theorem C1_rvalue_get_overloads_ill_formed :
    forwardCallInRvalueGet.compiles = false ∧
    deducibleFrom forwardParamShape = false ∧
    returnBindOk .rval (boostGetRet .rval) = false ∧
    returnBindOk .constRval (boostGetRet .constRval) = false := by
  decide

/-- C2: `range` unifies its endpoint types by the conditional-expression
rule; for `range(uint8_t{250}, int{300})` the inferred common type is
`int`, both 250 and 300 are representable in it (and survive conversion
unchanged, so no precision is lost), and the last value of the produced
sequence is 299. -/
theorem C2_range_uint8_int_instance :
    (CppUtils.range .u8 .i32 250 300 1).1 = .i32 ∧
    CTy.reprIn .i32 250 = true ∧
    CTy.reprIn .i32 300 = true ∧
    (CppUtils.range .u8 .i32 250 300 1).2 = irange 250 300 1 ∧
    (CppUtils.range .u8 .i32 250 300 1).2.getLast? = some 299 := by
  decide

/-- C3: for every cons cell, the `std::tuple_size` shim reports exactly
the value of `boost::tuples::length`, and that value is the recursively
counted number of elements of the cons-chain. -/
theorem C3_tuple_size_matches_boost_length {α : Type u} (h : α) (tl : Cons α) :
    tuple_size (Cons.cons h tl) = some (boostLength (Cons.cons h tl)) ∧
    boostLength (Cons.cons h tl) = (Cons.cons h tl).toList.length :=
  ⟨rfl, boostLength_eq_toList_length _⟩

/-- C4: the shim's lvalue `std::get<i>` overloads delegate unchanged to
`boost::get<i>`, and for every index below the arity both return the
`i`-th element of the chain. -/
theorem C4_std_get_delegates {α : Type u} (t : Cons α) (i : Nat)
    (hi : i < t.toList.length) :
    stdGet i t = boostGet i t ∧
    stdGet i t = t.toList[i]? ∧
    (stdGet i t).isSome = true := by
  refine ⟨rfl, boostGet_eq_getElem t i, ?_⟩
  rw [stdGet, boostGet_eq_getElem t i, List.getElem?_eq_getElem hi]
  rfl

/-- Witness for C4: index 1 of the chain (10, 20). -/
theorem C4_std_get_delegates_witness :
    stdGet 1 (Cons.cons (10 : Nat) (Cons.cons 20 Cons.nullType)) =
      (Cons.cons (10 : Nat) (Cons.cons 20 Cons.nullType)).toList[1]? :=
  (C4_std_get_delegates (Cons.cons (10 : Nat) (Cons.cons 20 Cons.nullType)) 1
    (by decide)).2.1

/-- C5: for a positive step, the produced range is exactly the half-open
ascending arithmetic progression of values below `end`, and the quoted
instances hold: `range(2,7)` is 2,3,4,5,6; `range(0,10,3)` is 0,3,6,9;
and `range(3,3)` is empty. -/
theorem C5_range_half_open :
    (∀ f l s : Int, 0 < s → ∀ x : Int,
        (x ∈ irange f l s ↔ ∃ k : Nat, x = f + (k : Int) * s ∧ x < l)) ∧
    (CppUtils.range .i32 .i32 2 7 1).2 = [2, 3, 4, 5, 6] ∧
    (CppUtils.range .i32 .i32 0 10 3).2 = [0, 3, 6, 9] ∧
    (CppUtils.range .i32 .i32 3 3 1).2 = [] := by
  exact ⟨fun f l s hs x => mem_irange hs x, by decide, by decide, by decide⟩

/-- Witness for C5: 6 belongs to the range from 2 below 7. -/
theorem C5_range_half_open_witness : (6 : Int) ∈ irange 2 7 1 :=
  (C5_range_half_open.1 2 7 1 (by decide) 6).mpr ⟨4, by decide, by decide⟩

/-- C6: traversing a range descriptor returns it unchanged, a second
traversal emits the same values, the emitted values are exactly the
descriptor's arithmetic sequence, and `range(5)` emits 0,1,2,3,4 on both
of two consecutive traversals. -/
theorem C6_range_restartable :
    (∀ r : RangeDesc,
        (traverse r).2 = r ∧
        (traverse ((traverse r).2)).1 = (traverse r).1 ∧
        (traverse r).1 = irange r.first r.last r.step) ∧
    (traverse (mkRange1 .i32 5)).1 = [0, 1, 2, 3, 4] ∧
    (traverse ((traverse (mkRange1 .i32 5)).2)).1 = [0, 1, 2, 3, 4] := by
  refine ⟨fun r => ⟨rfl, rfl, ?_⟩, by decide, by decide⟩
  show iterFrom (numSteps r.first r.last r.step) r.first r.step =
    irange r.first r.last r.step
  unfold irange
  exact iterFrom_eq _ _ _

/-- C7: for any end value representable in its own type `T`, the
one-argument `range(end)` yields the same value sequence as the
two-argument `range(T{0}, end)`. -/
theorem C7_range1_eq_range_from_zero (t : CTy) (e : Int)
    (he : t.reprIn e = true) :
    (range1 t e).2 = (CppUtils.range t t 0 e 1).2 := by
  have h0 : t.convert 0 = 0 := CTy.convert_id (reprIn_zero t)
  have h0p : t.promote.convert 0 = 0 := CTy.convert_id (reprIn_zero t.promote)
  have hep : t.promote.convert e = e := CTy.convert_id (CTy.promote_reprIn he)
  have het : t.convert e = e := CTy.convert_id he
  simp only [range1, CppUtils.range]
  rw [CTy.commonType_self t, h0, h0p, hep, het, irange2_eq_irange]

/-- Witness for C7 at `range(uint8_t{5})`. -/
theorem C7_range1_eq_range_from_zero_witness :
    (range1 .u8 5).2 = (CppUtils.range .u8 .u8 0 5 1).2 :=
  C7_range1_eq_range_from_zero .u8 5 (by decide)

/-- C8: `sgn` returns exactly 1 on positive, -1 on negative and 0 on zero
arguments. -/
theorem C8_sgn_correct (v : Int) :
    (0 < v → sgn v = 1) ∧ (v < 0 → sgn v = -1) ∧ (v = 0 → sgn v = 0) := by
  unfold sgn
  refine ⟨fun h => ?_, fun h => ?_, fun h => ?_⟩ <;> split_ifs <;> omega

/-- Witness for C8 at 7, -3 and 0. -/
theorem C8_sgn_correct_witness : sgn 7 = 1 ∧ sgn (-3) = -1 ∧ sgn 0 = 0 :=
  ⟨(C8_sgn_correct 7).1 (by decide), (C8_sgn_correct (-3)).2.1 (by decide),
    (C8_sgn_correct 0).2.2 rfl⟩

/-- C9: `as_signed` and `as_unsigned` are mutually inverse on `w`-bit
values: the round trip is the identity in both directions, both
conversions preserve the value's residue modulo `2 ^ w`, and both keep
the result inside the `w`-bit range of the target signedness (same bit
width). -/
theorem C9_as_signed_as_unsigned_inverse (w : Nat) (hw : 0 < w) :
    (∀ u : Nat, u < 2 ^ w → as_unsigned w (as_signed w u) = u) ∧
    (∀ s : Int, -(2 ^ (w - 1)) ≤ s → s < 2 ^ (w - 1) →
      as_signed w (as_unsigned w s) = s) ∧
    (∀ u : Nat, u < 2 ^ w → as_signed w u % 2 ^ w = (u : Int) % 2 ^ w) ∧
    (∀ s : Int, (as_unsigned w s : Int) % 2 ^ w = s % 2 ^ w) ∧
    (∀ u : Nat, u < 2 ^ w →
      -(2 ^ (w - 1)) ≤ as_signed w u ∧ as_signed w u < 2 ^ (w - 1)) ∧
    (∀ s : Int, as_unsigned w s < 2 ^ w) := by
  have h2pow : (2 : Int) ^ w = 2 ^ (w - 1) * 2 := by
    conv_lhs => rw [show w = w - 1 + 1 by omega]
    rw [pow_succ]
  have hP : (0 : Int) < 2 ^ (w - 1) := by positivity
  have hW : (0 : Int) < 2 ^ w := by positivity
  have hcast : ((2 ^ w : Nat) : Int) = (2 : Int) ^ w := by push_cast; ring
  have hsub : ∀ a : Int, (a - 2 ^ w) % 2 ^ w = a % 2 ^ w := by
    intro a
    rw [Int.sub_emod, Int.emod_self, sub_zero, Int.emod_emod_of_dvd a dvd_rfl]
  have hnegmod : ∀ s : Int, -(2 ^ w) ≤ s → s < 0 → s % 2 ^ w = s + 2 ^ w := by
    intro s h1 h2
    have key : (s + 2 ^ w * 1) % 2 ^ w = s % 2 ^ w :=
      Int.add_mul_emod_self_left s (2 ^ w) 1
    rw [mul_one] at key
    rw [← key, Int.emod_eq_of_lt (by omega) (by omega)]
  have hA : ∀ u : Nat, u < 2 ^ w → as_unsigned w (as_signed w u) = u := by
    intro u hu
    have huW : (u : Int) < 2 ^ w := by omega
    have hmu : (u : Int) % 2 ^ w = u := Int.emod_eq_of_lt (by positivity) huW
    simp only [as_signed, as_unsigned, hmu]
    split_ifs with h
    · rw [hmu]
      exact Int.toNat_natCast u
    · rw [hsub, hmu]
      exact Int.toNat_natCast u
  have hB : ∀ s : Int, -(2 ^ (w - 1)) ≤ s → s < 2 ^ (w - 1) →
      as_signed w (as_unsigned w s) = s := by
    intro s h1 h2
    rcases le_or_lt 0 s with hpos | hneg
    · have hsW : s < 2 ^ w := by omega
      have hms : s % 2 ^ w = s := Int.emod_eq_of_lt hpos hsW
      have hts : ((s.toNat : Int)) = s := Int.toNat_of_nonneg hpos
      simp only [as_unsigned, as_signed, hms, hts]
      rw [if_pos h2]
    · have hkey : s % 2 ^ w = s + 2 ^ w := hnegmod s (by omega) hneg
      have h0' : (0 : Int) ≤ s + 2 ^ w := by omega
      have hlt : s + 2 ^ w < 2 ^ w := by omega
      have ht : (((s + 2 ^ w).toNat : Int)) = s + 2 ^ w := Int.toNat_of_nonneg h0'
      have hm2 : (s + 2 ^ w) % 2 ^ w = s + 2 ^ w := Int.emod_eq_of_lt h0' hlt
      simp only [as_unsigned, as_signed, hkey, ht, hm2]
      rw [if_neg (by omega)]
      omega
  have hC : ∀ u : Nat, u < 2 ^ w → as_signed w u % 2 ^ w = (u : Int) % 2 ^ w := by
    intro u hu
    simp only [as_signed]
    split_ifs with h
    · rw [Int.emod_emod_of_dvd _ dvd_rfl]
    · rw [hsub, Int.emod_emod_of_dvd _ dvd_rfl]
  have hD : ∀ s : Int, (as_unsigned w s : Int) % 2 ^ w = s % 2 ^ w := by
    intro s
    have h0' : 0 ≤ s % 2 ^ w := Int.emod_nonneg s hW.ne'
    simp only [as_unsigned]
    rw [Int.toNat_of_nonneg h0', Int.emod_emod_of_dvd _ dvd_rfl]
  have hE : ∀ u : Nat, u < 2 ^ w →
      -(2 ^ (w - 1)) ≤ as_signed w u ∧ as_signed w u < 2 ^ (w - 1) := by
    intro u hu
    have huW : (u : Int) < 2 ^ w := by omega
    have hmu : (u : Int) % 2 ^ w = u := Int.emod_eq_of_lt (by positivity) huW
    simp only [as_signed, hmu]
    split_ifs with h
    · exact ⟨by omega, h⟩
    · constructor <;> omega
  have hF : ∀ s : Int, as_unsigned w s < 2 ^ w := by
    intro s
    have h0' : 0 ≤ s % 2 ^ w := Int.emod_nonneg s hW.ne'
    have hlt : s % 2 ^ w < 2 ^ w := Int.emod_lt_of_pos s hW
    simp only [as_unsigned]
    generalize hq : s % (2 : Int) ^ w = a at h0' hlt
    omega
  exact ⟨hA, hB, hC, hD, hE, hF⟩

/-- Witness for C9 at width 8: the round trip on 200 and on -56. -/
theorem C9_as_signed_as_unsigned_inverse_witness :
    as_unsigned 8 (as_signed 8 200) = 200 ∧
    as_signed 8 (as_unsigned 8 (-56)) = -56 :=
  ⟨(C9_as_signed_as_unsigned_inverse 8 (by decide)).1 200 (by decide),
    (C9_as_signed_as_unsigned_inverse 8 (by decide)).2.1 (-56) (by decide)
      (by decide)⟩

/-- C10: after `remove_if` the container holds exactly the elements on
which the predicate is false, in their original order: the result is the
order-preserving filter of the input, hence a sublist of it. -/
theorem C10_remove_if_filters {α : Type u} (c : List α) (p : α → Bool) :
    remove_if c p = c.filter (fun x => !p x) ∧
    (remove_if c p).Sublist c := by
  have h : remove_if c p = c.filter fun x => !p x := by
    show remove_if_loop p [] c = _
    rw [remove_if_loop_eq, List.nil_append]
  refine ⟨h, ?_⟩
  rw [h]
  exact List.filter_sublist c
